import Mathlib

/- Verification of the meteor_demod DSP core: the FIR/IIR filter engine and
   RRC coefficient generator (filters.c), the upsampling interpolator
   (interpolator.c) and the demodulator worker loop (demod.c), shallowly
   embedded from the C sources.  Machine floating point is modelled by exact
   arithmetic: real numbers for the RRC tap formulas, rationals for the
   timing-recovery loop, complex numbers for the sample stream. -/

namespace MeteorDemod

/-- A filter object: feed-forward taps `fwd`, feedback taps `back`, and the
tap delay line `mem` (struct Filter in filters.h).  The source keeps the
invariant that `mem` has the same length as `fwd`. -/
structure Filter (K : Type) where
  fwd : List K
  back : List K
  mem : List K

variable {K : Type} [CommRing K]

/-- Accumulation loop `for i: acc += u[i]*v[i]`, running over the indices both
lists have (the C code always calls it with equal-length arrays). -/
def dotp (u v : List K) : K :=
  ((u.zip v).map (fun p => p.1 * p.2)).sum

/-- filter_new (filters.c, lines 31-66): store the coefficient arrays and
zero-initialise (calloc) a delay line of the same length as `fwd`. -/
def filter_new (fwd back : List K) : Filter K :=
  { fwd := fwd, back := back, mem := List.replicate fwd.length 0 }

/-- The feedback loop of filter_fwd (filters.c, lines 132-134):
`for (i=1; i<back_count; i++) in -= mem[i]*back[i]` over the old delay
line. -/
def filterFeedIn (flt : Filter K) (x : K) : K :=
  x - dotp (flt.mem.drop 1) (flt.back.drop 1)

/-- The delay-line update of filter_fwd (filters.c, lines 137-138): shift
right by one (memmove over `fwd_count-1` cells, dropping the last entry)
and store the feedback-corrected input at position 0. -/
def filterShift (flt : Filter K) (x : K) : List K :=
  (filterFeedIn flt x :: flt.mem).take flt.mem.length

/-- filter_fwd (filters.c, lines 125-147): feedback subtraction, delay-line
shift, then the feed-forward dot product
`for (i=fwd_count-1; i>=0; i--) out += mem[i]*fwd_coeff[i]` over the updated
line.  Returns the output and the updated filter. -/
def filter_fwd (flt : Filter K) (x : K) : K × Filter K :=
  (dotp (filterShift flt x) flt.fwd, { flt with mem := filterShift flt x })

/-- Run a filter over a list of samples, returning the outputs in order and
the final filter state. -/
def runFilter (flt : Filter K) (xs : List K) : List K × Filter K :=
  match xs with
  | [] => ([], flt)
  | x :: rest =>
    let r := filter_fwd flt x
    let rest2 := runFilter r.2 rest
    (r.1 :: rest2.1, rest2.2)

/-- The number of nonzero entries of a list. -/
def countNonzero [DecidableEq K] (l : List K) : ℕ :=
  (l.filter (fun a => a ≠ 0)).length

/-- All entries of a list are nonzero. -/
def allNonzero (l : List K) : Prop :=
  ∀ x ∈ l, x ≠ 0

instance [DecidableEq K] (l : List K) : Decidable (allNonzero l) :=
  List.decidableBAll _ l

/-- The normalised time of a tap, `t = abs(order - stage_no)/osf` with
`order = (taps - 1)/2` (compute_rrc_coeff, filters.c line 183). -/
noncomputable def rrc_t (stage_no taps : ℕ) (osf : ℝ) : ℝ :=
  ((((((taps - 1) / 2 : ℕ) : ℤ) - (stage_no : ℤ)).natAbs : ℕ) : ℝ) / osf

/-- The denominator `interm = M_PI*t*(1-(4*alpha*t)*(4*alpha*t))` of a
non-centre RRC tap (compute_rrc_coeff, filters.c line 185). -/
noncomputable def rrc_interm (stage_no taps : ℕ) (osf alpha : ℝ) : ℝ :=
  Real.pi * rrc_t stage_no taps osf *
    (1 - (4 * alpha * rrc_t stage_no taps osf) * (4 * alpha * rrc_t stage_no taps osf))

/-- compute_rrc_coeff (filters.c, lines 168-189): the centre tap
`(taps-1)/2 == stage_no` is special-cased to `1-alpha+4*alpha/M_PI`; every
other tap is computed as `coeff / interm` with no guard on `interm`. -/
noncomputable def compute_rrc_coeff (stage_no taps : ℕ) (osf alpha : ℝ) : ℝ :=
  if (taps - 1) / 2 = stage_no then 1 - alpha + 4 * alpha / Real.pi
  else
    (Real.sin (Real.pi * rrc_t stage_no taps osf * (1 - alpha)) +
        4 * alpha * rrc_t stage_no taps osf *
          Real.cos (Real.pi * rrc_t stage_no taps osf * (1 + alpha))) /
      rrc_interm stage_no taps osf alpha

/-- filter_rrc (filters.c, lines 101-121): build the `2*order+1` coefficients
with `compute_rrc_coeff(i, taps, osf*factor, alpha)` and wrap them in a FIR
filter via `filter_new(taps, 0, coeffs)`. -/
noncomputable def filter_rrc (order factor : ℕ) (osf alpha : ℝ) : Filter ℝ :=
  filter_new
    (List.ofFn (fun i : Fin (2 * order + 1) =>
      compute_rrc_coeff (i : ℕ) (2 * order + 1) (osf * (factor : ℝ)) alpha))
    []

/-- The number of backend samples the interpolator requests,
`true_samp_count = count / factor` (interpolator.c line 67, C unsigned
division, i.e. the floor). -/
def interpTrueSampCount (count factor : ℕ) : ℕ :=
  count / factor

/-- The result of interp_read: its return value, the output block
`self->data`, and the updated RRC filter state. -/
structure InterpResult (K : Type) where
  ret : ℕ
  data : List K
  rrc : Filter K

/-- The loop `for (i=0; i<count; i++) self->data[i] =
filter_fwd(rrc, src->data[i/factor]) / M_SQRT2` (interpolator.c lines 76-78),
threading the filter state; `i` is the running index, `n` the samples left. -/
def interpLoopAux (sqrt2 : K) (src_data : ℕ → K) (factor : ℕ) [Field K] :
    ℕ → ℕ → Filter K → List K × Filter K
  | _, 0, flt => ([], flt)
  | i, n + 1, flt =>
    let r := filter_fwd flt (src_data (i / factor))
    let rest := interpLoopAux sqrt2 src_data factor (i + 1) n r.2
    (r.1 / sqrt2 :: rest.1, rest.2)

/-- interp_read (interpolator.c, lines 41-81): request
`count / factor` samples from the backend source; if the backend produces
nothing, return 0; otherwise fill all `count` output slots from the held
backend block through the RRC filter and return `count`.  The backend is
abstracted by its produced-count function `src_read` and its data block
`src_data`; the produced count is only ever compared against 0. -/
def interp_read (sqrt2 : K) (src_read : ℕ → ℕ) (src_data : ℕ → K)
    [Field K] (flt : Filter K) (factor count : ℕ) : InterpResult K :=
  let produced := src_read (interpTrueSampCount count factor)
  if produced = 0 then ⟨0, [], flt⟩
  else
    let r := interpLoopAux sqrt2 src_data factor 0 count flt
    ⟨count, r.1, r.2⟩

/-- Modelled from the spec: the `clamp` utility (utils.c is not among the
provided sources), `clamp(v) = round(saturate(v, -127, 127))`. -/
def clamp (v : ℚ) : ℤ :=
  round (max (-127 : ℚ) (min (127 : ℚ) v))

/-- The state of the demodulator worker loop (demod_thr_run, demod.c):
the Gardner timing accumulator and period, the three tracked samples, the
opaque AGC and Costas states, the emitted byte stream (the concatenation of
everything placed in `out_buf`; flushes to the file are I/O and do not
change it), and the shared `bytes_out_count`.  Samples are pairs (Re, Im). -/
structure DemodState (A C : Type) where
  resync_offset : ℚ
  resync_period : ℚ
  before : ℚ × ℚ
  mid : ℚ × ℚ
  cur : ℚ × ℚ
  agc : A
  cst : C
  out : List ℤ
  bytes_out : ℕ

/-- The single subtraction `resync_offset -= resync_period` performed by the
symbol-capture branch (demod.c line 176). -/
def captureSub (off period : ℚ) : ℚ :=
  off - period

/-- One iteration of the worker loop body (demod_thr_run, demod.c lines
168-198) on input sample `x`.  `agcF` models agc_apply and `costasF` models
costas_resync (both live in sources that are not provided; the loop only
calls them), each returning its updated state and the transformed sample.
The first branch captures the mid-symbol sample, the second performs the
symbol capture, and every iteration ends with `resync_offset++`. -/
def demodStep {A C : Type} (agcF : A → ℚ × ℚ → A × (ℚ × ℚ))
    (costasF : C → ℚ × ℚ → C × (ℚ × ℚ))
    (st : DemodState A C) (x : ℚ × ℚ) : DemodState A C :=
  let st1 :=
    if st.resync_period / 2 ≤ st.resync_offset ∧
        st.resync_offset < st.resync_period / 2 + 1 then
      let r := agcF st.agc x
      { st with agc := r.1, mid := r.2 }
    else if st.resync_period ≤ st.resync_offset then
      let r := agcF st.agc x
      let off1 := captureSub st.resync_offset st.resync_period
      let err := (r.2.2 - st.before.2) * st.mid.2
      let off2 := off1 + err * st.resync_period / 2000000
      let c := costasF st.cst r.2
      { st with
          agc := r.1
          cst := c.1
          resync_offset := off2
          before := r.2
          cur := c.2
          out := st.out ++ [clamp (c.2.1 / 2), clamp (c.2.2 / 2)]
          bytes_out := st.bytes_out + 2 }
    else st
  { st1 with resync_offset := st1.resync_offset + 1 }

/-- The worker loop run over a block of input samples. -/
def demodRun {A C : Type} (agcF : A → ℚ × ℚ → A × (ℚ × ℚ))
    (costasF : C → ℚ × ℚ → C × (ℚ × ℚ))
    (st : DemodState A C) (xs : List (ℚ × ℚ)) : DemodState A C :=
  xs.foldl (demodStep agcF costasF) st

theorem dotp_cons (a b : K) (u v : List K) :
    dotp (a :: u) (b :: v) = a * b + dotp u v := by
  simp [dotp]

theorem dotp_nil_right (u : List K) : dotp u [] = 0 := by
  simp [dotp]

theorem getD_drop_one {α : Type} (l : List α) (i : ℕ) (d : α) :
    (l.drop 1).getD i d = l.getD (i + 1) d := by
  cases l with
  | nil => simp
  | cons a t => simp [List.getD_cons_succ]

theorem dotp_eq_sum (u v : List K) :
    dotp u v = Finset.sum (Finset.range (min u.length v.length))
      (fun i => u.getD i 0 * v.getD i 0) := by
  induction u generalizing v with
  | nil => simp [dotp]
  | cons a u ih =>
    cases v with
    | nil => simp [dotp_nil_right]
    | cons b v =>
      have hmin : min (a :: u).length (b :: v).length = min u.length v.length + 1 := by
        simp; omega
      rw [dotp_cons, ih v, hmin, Finset.sum_range_succ']
      simp [List.getD_cons_succ, List.getD_cons_zero]
      ring

/-- Claim C2: a single call of filter_fwd on input x computes
x' = x - sum over i in [1, N) of mem[i]*back[i] (the sum is empty for a FIR
filter, where N = 0), shifts mem right by one dropping the last entry, stores
x' at mem[0], and returns the dot product of the new mem with the forward
taps. -/
theorem filter_fwd_spec (flt : Filter K) (x : K)
    (hm : flt.mem.length = flt.fwd.length)
    (hM : 0 < flt.fwd.length)
    (hN : flt.back.length ≤ flt.fwd.length) :
    (filter_fwd flt x).2.mem =
      (x - Finset.sum (Finset.Ico 1 flt.back.length)
          (fun i => flt.mem.getD i 0 * flt.back.getD i 0)) :: flt.mem.dropLast ∧
    (filter_fwd flt x).1 =
      Finset.sum (Finset.range flt.fwd.length)
        (fun i => (filter_fwd flt x).2.mem.getD i 0 * flt.fwd.getD i 0) := by
  have hfeed : filterFeedIn flt x =
      x - Finset.sum (Finset.Ico 1 flt.back.length)
        (fun i => flt.mem.getD i 0 * flt.back.getD i 0) := by
    unfold filterFeedIn
    congr 1
    rw [dotp_eq_sum]
    have hlen : min (flt.mem.drop 1).length (flt.back.drop 1).length
        = flt.back.length - 1 := by
      simp [List.length_drop]
      omega
    rw [hlen, Finset.sum_Ico_eq_sum_range]
    apply Finset.sum_congr rfl
    intro i _
    simp [getD_drop_one, Nat.add_comm]
  have hshift : filterShift flt x = filterFeedIn flt x :: flt.mem.dropLast := by
    unfold filterShift
    obtain ⟨k, hk⟩ : ∃ k, flt.mem.length = k + 1 := ⟨flt.mem.length - 1, by omega⟩
    rw [hk, List.take_succ_cons, List.dropLast_eq_take, hk]
    simp
  constructor
  · show filterShift flt x = _
    rw [hshift, hfeed]
  · show dotp (filterShift flt x) flt.fwd = _
    rw [dotp_eq_sum]
    have h1 : (filterShift flt x).length = flt.fwd.length := by
      unfold filterShift
      simp [List.length_take]
      omega
    rw [h1, min_self]
    rfl

/-- Witness for C2: a concrete two-tap IIR filter over the rationals. -/
theorem filter_fwd_spec_witness :
    (List.length [(5 : ℚ), 7] = List.length [(1 : ℚ), 2]) ∧
    (0 < List.length [(1 : ℚ), 2]) ∧
    (List.length [(0 : ℚ), 3] ≤ List.length [(1 : ℚ), 2]) ∧
    ((filter_fwd (Filter.mk [(1 : ℚ), 2] [0, 3] [5, 7]) 11).2.mem =
        ((11 : ℚ) - Finset.sum (Finset.Ico 1 (List.length [(0 : ℚ), 3]))
          (fun i => List.getD [(5 : ℚ), 7] i 0 * List.getD [(0 : ℚ), 3] i 0)) ::
          List.dropLast [(5 : ℚ), 7] ∧
      (filter_fwd (Filter.mk [(1 : ℚ), 2] [0, 3] [5, 7]) 11).1 =
        Finset.sum (Finset.range (List.length [(1 : ℚ), 2]))
          (fun i =>
            (filter_fwd (Filter.mk [(1 : ℚ), 2] [0, 3] [5, 7]) 11).2.mem.getD i 0 *
            List.getD [(1 : ℚ), 2] i 0)) :=
  ⟨by decide, by decide, by decide,
    filter_fwd_spec (Filter.mk [(1 : ℚ), 2] [0, 3] [5, 7]) 11
      (by decide) (by decide) (by decide)⟩

/-- Claim C3: the RRC factory yields a FIR filter with exactly 2*order+1
taps, and the centre tap taps[order] is exactly 1 - alpha + 4*alpha/pi (in
the exact real-arithmetic model of the float computation; exact equality is
the real-number counterpart of "within 1 ulp"). -/
theorem filter_rrc_center_tap (order factor : ℕ) (osf alpha : ℝ) :
    (filter_rrc order factor osf alpha).fwd.length = 2 * order + 1 ∧
    (filter_rrc order factor osf alpha).back = [] ∧
    (filter_rrc order factor osf alpha).fwd.getD order 0 =
      1 - alpha + 4 * alpha / Real.pi := by
  refine ⟨by simp [filter_rrc, filter_new], rfl, ?_⟩
  have hlt : order < (filter_rrc order factor osf alpha).fwd.length := by
    simp [filter_rrc, filter_new]
    omega
  rw [List.getD_eq_getElem _ _ hlt]
  simp only [filter_rrc, filter_new, List.getElem_ofFn]
  have hguard : (2 * order + 1 - 1) / 2 = order := by omega
  simp [compute_rrc_coeff, hguard]

/-- Claim C4 (code bug): at stage_no = 0, taps = 3, osf = 1, alpha = 1/4 the
normalised time is t = 1 and 4*alpha*t = 1, so the denominator `interm` of
the unguarded tap formula evaluates to exactly 0 while the centre-tap guard
(order = (taps-1)/2 = 1, not 0) does not fire: the C code divides by zero
and produces a non-finite coefficient. -/
theorem rrc_interm_vanishes :
    rrc_interm 0 3 1 (1 / 4) = 0 ∧ (3 - 1) / 2 ≠ 0 := by
  constructor
  · have ht : rrc_t 0 3 1 = 1 := by
      simp [rrc_t]
    simp [rrc_interm, ht]
  · decide

/-- Claim C5 counterexample: with period 4 and an accumulated offset of 9
(beyond twice the period), the capture-step subtraction leaves the offset at
5, which is not within one period. -/
theorem captureSub_overflow_cex :
    2 * 4 ≤ (9 : ℚ) ∧ ¬ captureSub 9 4 < 4 := by
  constructor
  · norm_num
  · norm_num [captureSub]

/-- Claim C5 (amended): the symbol-capture step subtracts the period exactly
once, so the resulting offset (before the timing-error adjustment) is below
one period exactly when the pre-capture offset was below two periods;
larger offsets stay at or above one period after the capture. -/
theorem captureSub_lt_period_iff (off period : ℚ) :
    captureSub off period < period ↔ off < 2 * period := by
  unfold captureSub
  constructor <;> intro h <;> linarith

/-- Claim C10: interp_read returns either 0 or exactly the requested count,
never a value strictly in between, whatever the backend read produces. -/
theorem interp_read_all_or_nothing (src_read : ℕ → ℕ) (src_data : ℕ → ℂ)
    (flt : Filter ℂ) (factor count : ℕ) :
    (interp_read ((Real.sqrt 2 : ℝ) : ℂ) src_read src_data flt factor count).ret = 0 ∨
    (interp_read ((Real.sqrt 2 : ℝ) : ℂ) src_read src_data flt factor count).ret = count := by
  unfold interp_read
  by_cases h : src_read (interpTrueSampCount count factor) = 0
  · left
    simp [h]
  · right
    simp [h]

theorem take_append_take {α : Type} (A B : List α) (n : ℕ) :
    (A ++ B.take n).take n = (A ++ B).take n := by
  rw [List.take_append_eq_append_take, List.take_append_eq_append_take,
    List.take_take, Nat.min_eq_left (Nat.sub_le n A.length)]

theorem runFilter_fir_mem (fwd xs : List K) : ∀ mem : List K,
    (runFilter (Filter.mk fwd [] mem) xs).2.mem
      = (xs.reverse ++ mem).take mem.length := by
  induction xs with
  | nil =>
    intro mem
    simp [runFilter]
  | cons x rest ih =>
    intro mem
    have hfeed : filterFeedIn (Filter.mk fwd [] mem) x = x := by
      simp [filterFeedIn, dotp_nil_right]
    have hstep : (filter_fwd (Filter.mk fwd [] mem) x).2
        = Filter.mk fwd [] ((x :: mem).take mem.length) := by
      simp [filter_fwd, filterShift, hfeed]
    have hlen : ((x :: mem).take mem.length).length = mem.length := by
      simp [List.length_take]
    calc (runFilter (Filter.mk fwd [] mem) (x :: rest)).2.mem
        = (runFilter (filter_fwd (Filter.mk fwd [] mem) x).2 rest).2.mem := rfl
      _ = (runFilter (Filter.mk fwd [] ((x :: mem).take mem.length)) rest).2.mem := by
          rw [hstep]
      _ = (rest.reverse ++ (x :: mem).take mem.length).take mem.length := by
          rw [ih ((x :: mem).take mem.length), hlen]
      _ = (rest.reverse ++ (x :: mem)).take mem.length := take_append_take _ _ _
      _ = ((x :: rest).reverse ++ mem).take mem.length := by
          simp [List.reverse_cons, List.append_assoc]

theorem countNonzero_append [DecidableEq K] (l1 l2 : List K) :
    countNonzero (l1 ++ l2) = countNonzero l1 + countNonzero l2 := by
  simp [countNonzero, List.filter_append]

theorem countNonzero_replicate_zero [DecidableEq K] (n : ℕ) :
    countNonzero (List.replicate n (0 : K)) = 0 := by
  induction n with
  | zero => simp [countNonzero]
  | succ n ih =>
    simp [countNonzero, List.replicate_succ, List.filter_cons]

theorem countNonzero_of_allNonzero [DecidableEq K] :
    ∀ l : List K, allNonzero l → countNonzero l = l.length := by
  intro l
  induction l with
  | nil =>
    intro _
    simp [countNonzero]
  | cons a t ih =>
    intro h
    have ha : a ≠ 0 := h a (by simp)
    have ht : allNonzero t := by
      intro y hy
      exact h y (by simp [hy])
    simp [countNonzero, List.filter_cons, ha] at ih ⊢
    exact ih ht

theorem countNonzero_take_append_replicate [DecidableEq K] (ys : List K) (M : ℕ)
    (h : allNonzero ys) :
    countNonzero ((ys ++ List.replicate M (0 : K)).take M) = min ys.length M := by
  rw [List.take_append_eq_append_take, List.take_replicate, countNonzero_append,
    countNonzero_replicate_zero, countNonzero_of_allNonzero (ys.take M)
      (fun y hy => h y (List.mem_of_mem_take hy))]
  simp [List.length_take]
  omega

/-- Claim C8 (amended: for FIR filters, i.e. with no feedback taps): a fresh
filter has an all-zero delay line, and after k advances with all inputs
nonzero exactly min(k, M) delay-line entries are nonzero.  (The claim as
stated, over every filter, fails for IIR filters: feedback can cancel a
nonzero input back to zero, see the counterexample.) -/
theorem fir_mem_nonzero_count [DecidableEq K] (fwd xs : List K)
    (h : allNonzero xs) :
    countNonzero (filter_new fwd ([] : List K)).mem = 0 ∧
    countNonzero (runFilter (filter_new fwd []) xs).2.mem
      = min xs.length fwd.length := by
  constructor
  · simp [filter_new, countNonzero_replicate_zero]
  · have hrev : allNonzero xs.reverse := by
      intro y hy
      exact h y (List.mem_reverse.mp hy)
    have hnew : filter_new fwd ([] : List K)
        = Filter.mk fwd [] (List.replicate fwd.length 0) := rfl
    rw [hnew, runFilter_fir_mem fwd xs (List.replicate fwd.length 0),
      List.length_replicate, countNonzero_take_append_replicate _ _ hrev,
      List.length_reverse]

/-- Witness for C8 (amended): a fresh 2-tap FIR filter over the rationals
fed three nonzero samples ends with min(3,2) = 2 nonzero delay-line
entries. -/
theorem fir_mem_nonzero_count_witness :
    allNonzero [(1 : ℚ), 2, 3] ∧
    (countNonzero (filter_new [(1 : ℚ), 1] ([] : List ℚ)).mem = 0 ∧
     countNonzero (runFilter (filter_new [(1 : ℚ), 1] []) [1, 2, 3]).2.mem
       = min (List.length [(1 : ℚ), 2, 3]) (List.length [(1 : ℚ), 1])) :=
  ⟨by decide, fir_mem_nonzero_count [(1 : ℚ), 1] [1, 2, 3] (by decide)⟩

/-- Claim C8 counterexample: the claim quantifies over every filter, but for
the IIR filter with forward taps [1,1], feedback taps [0,1] and three
advances on the nonzero inputs [1,1,1], the feedback subtraction cancels the
third input to zero: only 1 delay-line entry is nonzero, not min(3,2) = 2. -/
theorem iir_mem_count_cex :
    countNonzero (runFilter (filter_new [(1 : ℤ), 1] [0, 1]) [1, 1, 1]).2.mem
      ≠ min 3 2 := by
  decide

theorem filter_fwd_mem_length (flt : Filter K) (x : K) :
    (filter_fwd flt x).2.mem.length = flt.mem.length := by
  simp [filter_fwd, filterShift, List.length_take]

theorem zipWith_drop_one {α : Type} (f : α → α → α) (l1 l2 : List α) :
    (List.zipWith f l1 l2).drop 1 = List.zipWith f (l1.drop 1) (l2.drop 1) := by
  cases l1 with
  | nil => simp
  | cons u t1 =>
    cases l2 with
    | nil => simp
    | cons v t2 => simp

theorem dotp_zipWith_comb (a b : K) : ∀ (m1 m2 cs : List K),
    m1.length = m2.length →
    dotp (List.zipWith (fun u v => a * u + b * v) m1 m2) cs
      = a * dotp m1 cs + b * dotp m2 cs := by
  intro m1
  induction m1 with
  | nil =>
    intro m2 cs h
    cases m2 with
    | nil => simp [dotp]
    | cons v t2 => simp at h
  | cons u t1 ih =>
    intro m2 cs h
    cases m2 with
    | nil => simp at h
    | cons v t2 =>
      cases cs with
      | nil => simp [dotp_nil_right]
      | cons c cst1 =>
        have ht : t1.length = t2.length := by
          simp at h
          exact h
        simp only [List.zipWith_cons_cons, dotp_cons, ih t2 cst1 ht]
        ring

theorem zipWith_comb_replicate_zero (a b : K) : ∀ n : ℕ,
    List.zipWith (fun u v => a * u + b * v)
      (List.replicate n (0 : K)) (List.replicate n 0) = List.replicate n 0 := by
  intro n
  induction n with
  | zero => rfl
  | succ n ih => simp [List.replicate_succ, ih]

theorem filter_fwd_comb (a b : K) (fwd back : List K) (x y : K) (m1 m2 : List K)
    (h : m1.length = m2.length) :
    (filter_fwd (Filter.mk fwd back
        (List.zipWith (fun u v => a * u + b * v) m1 m2)) (a * x + b * y)).1
      = a * (filter_fwd (Filter.mk fwd back m1) x).1
        + b * (filter_fwd (Filter.mk fwd back m2) y).1 ∧
    (filter_fwd (Filter.mk fwd back
        (List.zipWith (fun u v => a * u + b * v) m1 m2)) (a * x + b * y)).2.mem
      = List.zipWith (fun u v => a * u + b * v)
          (filter_fwd (Filter.mk fwd back m1) x).2.mem
          (filter_fwd (Filter.mk fwd back m2) y).2.mem := by
  have hfeed : filterFeedIn (Filter.mk fwd back
      (List.zipWith (fun u v => a * u + b * v) m1 m2)) (a * x + b * y)
      = a * filterFeedIn (Filter.mk fwd back m1) x
        + b * filterFeedIn (Filter.mk fwd back m2) y := by
    have hd : (m1.drop 1).length = (m2.drop 1).length := by
      simp [List.length_drop, h]
    simp only [filterFeedIn, zipWith_drop_one, dotp_zipWith_comb a b _ _ _ hd]
    ring
  have hshift : filterShift (Filter.mk fwd back
      (List.zipWith (fun u v => a * u + b * v) m1 m2)) (a * x + b * y)
      = List.zipWith (fun u v => a * u + b * v)
          (filterShift (Filter.mk fwd back m1) x)
          (filterShift (Filter.mk fwd back m2) y) := by
    simp only [filterShift, hfeed]
    rw [show (a * filterFeedIn (Filter.mk fwd back m1) x
          + b * filterFeedIn (Filter.mk fwd back m2) y)
          :: List.zipWith (fun u v => a * u + b * v) m1 m2
        = List.zipWith (fun u v => a * u + b * v)
            (filterFeedIn (Filter.mk fwd back m1) x :: m1)
            (filterFeedIn (Filter.mk fwd back m2) y :: m2) from rfl]
    rw [List.take_zipWith]
    have hlen : (List.zipWith (fun u v => a * u + b * v) m1 m2).length = m1.length := by
      simp [List.length_zipWith, h]
    rw [hlen, h]
  constructor
  · show dotp (filterShift _ _) fwd = _
    rw [hshift]
    have hs : (filterShift (Filter.mk fwd back m1) x).length
        = (filterShift (Filter.mk fwd back m2) y).length := by
      simp only [filterShift, List.length_take]
      simp [h]
    exact dotp_zipWith_comb a b _ _ fwd hs
  · show filterShift _ _ = _
    exact hshift

theorem runFilter_comb (a b : K) (fwd back : List K) : ∀ (xs ys m1 m2 : List K),
    m1.length = m2.length →
    (runFilter (Filter.mk fwd back (List.zipWith (fun u v => a * u + b * v) m1 m2))
        (List.zipWith (fun u v => a * u + b * v) xs ys)).1
      = List.zipWith (fun u v => a * u + b * v)
          (runFilter (Filter.mk fwd back m1) xs).1
          (runFilter (Filter.mk fwd back m2) ys).1 := by
  intro xs
  induction xs with
  | nil =>
    intro ys m1 m2 h
    simp [runFilter]
  | cons x xs ih =>
    intro ys m1 m2 h
    cases ys with
    | nil => simp [runFilter]
    | cons y ys =>
      obtain ⟨hout, hmem⟩ := filter_fwd_comb a b fwd back x y m1 m2 h
      have hstep : (filter_fwd (Filter.mk fwd back
          (List.zipWith (fun u v => a * u + b * v) m1 m2)) (a * x + b * y)).2
          = Filter.mk fwd back (List.zipWith (fun u v => a * u + b * v)
              (filter_fwd (Filter.mk fwd back m1) x).2.mem
              (filter_fwd (Filter.mk fwd back m2) y).2.mem) := by
        simp only [filter_fwd] at hmem ⊢
        rw [hmem]
      have hlen2 : (filter_fwd (Filter.mk fwd back m1) x).2.mem.length
          = (filter_fwd (Filter.mk fwd back m2) y).2.mem.length := by
        rw [filter_fwd_mem_length, filter_fwd_mem_length]
        exact h
      have hm1 : (filter_fwd (Filter.mk fwd back m1) x).2
          = Filter.mk fwd back (filter_fwd (Filter.mk fwd back m1) x).2.mem := rfl
      have hm2 : (filter_fwd (Filter.mk fwd back m2) y).2
          = Filter.mk fwd back (filter_fwd (Filter.mk fwd back m2) y).2.mem := rfl
      calc (runFilter (Filter.mk fwd back
              (List.zipWith (fun u v => a * u + b * v) m1 m2))
            (List.zipWith (fun u v => a * u + b * v) (x :: xs) (y :: ys))).1
          = (filter_fwd (Filter.mk fwd back
              (List.zipWith (fun u v => a * u + b * v) m1 m2)) (a * x + b * y)).1
            :: (runFilter (filter_fwd (Filter.mk fwd back
                (List.zipWith (fun u v => a * u + b * v) m1 m2)) (a * x + b * y)).2
                (List.zipWith (fun u v => a * u + b * v) xs ys)).1 := rfl
        _ = (a * (filter_fwd (Filter.mk fwd back m1) x).1
              + b * (filter_fwd (Filter.mk fwd back m2) y).1)
            :: List.zipWith (fun u v => a * u + b * v)
                (runFilter (filter_fwd (Filter.mk fwd back m1) x).2 xs).1
                (runFilter (filter_fwd (Filter.mk fwd back m2) y).2 ys).1 := by
            rw [hout, hstep, hm1, hm2, ih ys _ _ hlen2]
        _ = List.zipWith (fun u v => a * u + b * v)
              (runFilter (Filter.mk fwd back m1) (x :: xs)).1
              (runFilter (Filter.mk fwd back m2) (y :: ys)).1 := rfl

/-- Claim C9: the filter advance operation is linear.  Two fresh instances
with the same coefficients (delay lines zero-initialised by filter_new, as
every instance is at creation) and the combined sequence a*x + b*y produce,
sample by sample, a times the outputs on x plus b times the outputs on y. -/
theorem filter_advance_linear (fwd back : List K) (a b : K) (xs ys : List K) :
    (runFilter (filter_new fwd back)
        (List.zipWith (fun u v => a * u + b * v) xs ys)).1
      = List.zipWith (fun u v => a * u + b * v)
          (runFilter (filter_new fwd back) xs).1
          (runFilter (filter_new fwd back) ys).1 := by
  have h := runFilter_comb a b fwd back xs ys
    (List.replicate fwd.length 0) (List.replicate fwd.length 0) rfl
  rw [zipWith_comb_replicate_zero] at h
  exact h

theorem interpLoopAux_spec [Field K] (sqrt2 : K) (d : ℕ → K) (f : ℕ) :
    ∀ (n i : ℕ) (flt : Filter K),
    interpLoopAux sqrt2 d f i n flt
      = ((runFilter flt (List.ofFn (fun j : Fin n => d ((i + (j : ℕ)) / f)))).1.map
          (fun y => y / sqrt2),
         (runFilter flt (List.ofFn (fun j : Fin n => d ((i + (j : ℕ)) / f)))).2) := by
  intro n
  induction n with
  | zero =>
    intro i flt
    simp [interpLoopAux, runFilter]
  | succ n ih =>
    intro i flt
    have hof : List.ofFn (fun j : Fin (n + 1) => d ((i + (j : ℕ)) / f))
        = d (i / f) :: List.ofFn (fun j : Fin n => d ((i + 1 + (j : ℕ)) / f)) := by
      have harg : (fun j : Fin n => d ((i + ((j.succ : Fin (n + 1)) : ℕ)) / f))
          = (fun j : Fin n => d ((i + 1 + (j : ℕ)) / f)) := by
        funext j
        have hval : i + ((j.succ : Fin (n + 1)) : ℕ) = i + 1 + (j : ℕ) := by
          rw [Fin.val_succ]
          omega
        rw [hval]
      rw [List.ofFn_succ, harg]
      simp
    simp only [interpLoopAux, hof]
    rw [ih (i + 1) (filter_fwd flt (d (i / f))).2]
    simp [runFilter]

/-- Claim C1 counterexample: for a requested block of n = 5 output samples at
interpolation factor L = 2 the code requests `count / factor` = 2 backend
samples (C unsigned division truncates), not the ceiling (5+2-1)/2 = 3
stated by the claim. -/
theorem interp_request_cex : interpTrueSampCount 5 2 ≠ (5 + 2 - 1) / 2 := by
  decide

/-- Claim C1 (amended): for a requested output block of n samples at factor
L, interp_read requests exactly floor(n/L) samples from the backend (not the
ceiling), and when the backend produces data it returns n and output index i
carries the RRC filter advanced on backend sample floor(i/L), divided by
sqrt 2. -/
theorem interp_read_spec (src_read : ℕ → ℕ) (src_data : ℕ → ℂ) (flt : Filter ℂ)
    (factor count : ℕ)
    (h : src_read (interpTrueSampCount count factor) ≠ 0) :
    interpTrueSampCount count factor = count / factor ∧
    (interp_read ((Real.sqrt 2 : ℝ) : ℂ) src_read src_data flt factor count).ret
      = count ∧
    (interp_read ((Real.sqrt 2 : ℝ) : ℂ) src_read src_data flt factor count).data
      = (runFilter flt
          (List.ofFn (fun i : Fin count => src_data ((i : ℕ) / factor)))).1.map
          (fun y => y / ((Real.sqrt 2 : ℝ) : ℂ)) := by
  refine ⟨rfl, ?_, ?_⟩
  · simp only [interp_read]
    rw [if_neg h]
  · simp only [interp_read]
    rw [if_neg h]
    show (interpLoopAux _ src_data factor 0 count flt).1 = _
    rw [interpLoopAux_spec]
    simp only [Nat.zero_add]

/-- Witness for C1 (amended): a backend that always reports one produced
sample, a zero data block, a one-tap filter, factor 2 and count 3. -/
theorem interp_read_spec_witness :
    ((fun _ : ℕ => 1) (interpTrueSampCount 3 2) ≠ 0) ∧
    (interpTrueSampCount 3 2 = 3 / 2 ∧
     (interp_read ((Real.sqrt 2 : ℝ) : ℂ) (fun _ => 1) (fun _ => 0)
        (filter_new [(1 : ℂ)] []) 2 3).ret = 3 ∧
     (interp_read ((Real.sqrt 2 : ℝ) : ℂ) (fun _ => 1) (fun _ => 0)
        (filter_new [(1 : ℂ)] []) 2 3).data
       = (runFilter (filter_new [(1 : ℂ)] [])
           (List.ofFn (fun i : Fin 3 => (fun _ : ℕ => (0 : ℂ)) ((i : ℕ) / 2)))).1.map
           (fun y => y / ((Real.sqrt 2 : ℝ) : ℂ))) :=
  ⟨by decide,
    interp_read_spec (fun _ => 1) (fun _ => 0) (filter_new [(1 : ℂ)] []) 2 3
      (by decide)⟩

/-- Claim C6: on a symbol capture (offset at or beyond one period; periods of
at least 2 samples, so the mid-sample window cannot also be open), the loop
body computes the Gardner error tau = (Im cur - Im before) * Im mid from the
AGC-scaled sample cur, moves the offset to off - period + tau*period/2000000
(plus the unconditional end-of-iteration increment), stores the pre-Costas
cur in before, passes cur through the Costas resync, and appends
clamp(Re cur / 2) and clamp(Im cur / 2) to the output as two soft bytes. -/
theorem demod_capture_step {A C : Type} (agcF : A → ℚ × ℚ → A × (ℚ × ℚ))
    (costasF : C → ℚ × ℚ → C × (ℚ × ℚ)) (st : DemodState A C) (x : ℚ × ℚ)
    (hp : 2 ≤ st.resync_period) (h : st.resync_period ≤ st.resync_offset) :
    demodStep agcF costasF st x =
      { st with
          agc := (agcF st.agc x).1
          cst := (costasF st.cst (agcF st.agc x).2).1
          resync_offset := st.resync_offset - st.resync_period
            + ((agcF st.agc x).2.2 - st.before.2) * st.mid.2
              * st.resync_period / 2000000 + 1
          before := (agcF st.agc x).2
          cur := (costasF st.cst (agcF st.agc x).2).2
          out := st.out ++ [clamp ((costasF st.cst (agcF st.agc x).2).2.1 / 2),
                            clamp ((costasF st.cst (agcF st.agc x).2).2.2 / 2)]
          bytes_out := st.bytes_out + 2 } := by
  have hc1 : ¬ (st.resync_period / 2 ≤ st.resync_offset ∧
      st.resync_offset < st.resync_period / 2 + 1) := by
    intro hcon
    have h2 := hcon.2
    linarith
  unfold demodStep
  rw [if_neg hc1, if_pos h]
  simp [captureSub]

/-- Witness for C6: identity AGC and Costas maps on trivial states, period 4,
offset 5. -/
theorem demod_capture_step_witness :
    ((2 : ℚ) ≤ (DemodState.mk 5 4 (0, 0) (0, 1) (0, 0) () () [] 0).resync_period) ∧
    ((DemodState.mk 5 4 (0, 0) (0, 1) (0, 0) () () [] 0).resync_period
      ≤ (DemodState.mk 5 4 (0, 0) (0, 1) (0, 0) () () [] 0).resync_offset) ∧
    demodStep (fun (a : Unit) x => (a, x)) (fun (c : Unit) x => (c, x))
        (DemodState.mk 5 4 (0, 0) (0, 1) (0, 0) () () [] 0) (6, 2) =
      { DemodState.mk 5 4 (0, 0) (0, 1) (0, 0) () () [] 0 with
          agc := ((fun (a : Unit) x => (a, x)) () ((6 : ℚ), (2 : ℚ))).1
          cst := ((fun (c : Unit) x => (c, x)) ()
            ((fun (a : Unit) x => (a, x)) () ((6 : ℚ), (2 : ℚ))).2).1
          resync_offset := (5 : ℚ) - 4
            + (((fun (a : Unit) x => (a, x)) () ((6 : ℚ), (2 : ℚ))).2.2 - 0) * 1
              * 4 / 2000000 + 1
          before := ((fun (a : Unit) x => (a, x)) () ((6 : ℚ), (2 : ℚ))).2
          cur := ((fun (c : Unit) x => (c, x)) ()
            ((fun (a : Unit) x => (a, x)) () ((6 : ℚ), (2 : ℚ))).2).2
          out := [] ++ [clamp (((fun (c : Unit) x => (c, x)) ()
              ((fun (a : Unit) x => (a, x)) () ((6 : ℚ), (2 : ℚ))).2).2.1 / 2),
            clamp (((fun (c : Unit) x => (c, x)) ()
              ((fun (a : Unit) x => (a, x)) () ((6 : ℚ), (2 : ℚ))).2).2.2 / 2)]
          bytes_out := 0 + 2 } :=
  ⟨by decide, by decide,
    demod_capture_step (fun (a : Unit) x => (a, x)) (fun (c : Unit) x => (c, x))
      (DemodState.mk 5 4 (0, 0) (0, 1) (0, 0) () () [] 0) (6, 2)
      (by decide) (by decide)⟩

theorem demodStep_bytes_mono {A C : Type} (agcF : A → ℚ × ℚ → A × (ℚ × ℚ))
    (costasF : C → ℚ × ℚ → C × (ℚ × ℚ)) (st : DemodState A C) (x : ℚ × ℚ) :
    st.bytes_out ≤ (demodStep agcF costasF st x).bytes_out := by
  unfold demodStep
  split_ifs <;> simp

theorem demodRun_bytes_mono {A C : Type} (agcF : A → ℚ × ℚ → A × (ℚ × ℚ))
    (costasF : C → ℚ × ℚ → C × (ℚ × ℚ)) : ∀ (xs : List (ℚ × ℚ)) (st : DemodState A C),
    st.bytes_out ≤ (demodRun agcF costasF st xs).bytes_out := by
  intro xs
  induction xs with
  | nil =>
    intro st
    exact le_refl _
  | cons z zs ih =>
    intro st
    calc st.bytes_out
        ≤ (demodStep agcF costasF st z).bytes_out :=
          demodStep_bytes_mono agcF costasF st z
      _ ≤ (demodRun agcF costasF (demodStep agcF costasF st z) zs).bytes_out :=
          ih _
      _ = (demodRun agcF costasF st (z :: zs)).bytes_out := rfl

/-- Claim C7: each worker-loop iteration appends exactly two bytes to the
output when (and only when) it captures a symbol, zero bytes otherwise, the
shared bytes_out counter grows by exactly the number of appended bytes, and
over any run of the loop the counter is monotonically non-decreasing. -/
theorem demod_bytes_out {A C : Type} (agcF : A → ℚ × ℚ → A × (ℚ × ℚ))
    (costasF : C → ℚ × ℚ → C × (ℚ × ℚ)) (st : DemodState A C) (x : ℚ × ℚ)
    (xs : List (ℚ × ℚ)) :
    (∃ k : List ℤ, (demodStep agcF costasF st x).out = st.out ++ k ∧
      k.length = (if ¬ (st.resync_period / 2 ≤ st.resync_offset ∧
            st.resync_offset < st.resync_period / 2 + 1) ∧
          st.resync_period ≤ st.resync_offset then 2 else 0) ∧
      (demodStep agcF costasF st x).bytes_out = st.bytes_out + k.length) ∧
    st.bytes_out ≤ (demodRun agcF costasF st xs).bytes_out := by
  constructor
  · by_cases hc1 : st.resync_period / 2 ≤ st.resync_offset ∧
        st.resync_offset < st.resync_period / 2 + 1
    · refine ⟨[], ?_, ?_, ?_⟩
      · simp [demodStep, hc1]
      · simp [hc1]
      · simp [demodStep, hc1]
    · by_cases hc2 : st.resync_period ≤ st.resync_offset
      · refine ⟨[clamp ((costasF st.cst (agcF st.agc x).2).2.1 / 2),
                 clamp ((costasF st.cst (agcF st.agc x).2).2.2 / 2)], ?_, ?_, ?_⟩
        · simp [demodStep, hc1, hc2]
        · simp [hc1, hc2]
        · simp [demodStep, hc1, hc2]
      · refine ⟨[], ?_, ?_, ?_⟩
        · simp [demodStep, hc1, hc2]
        · simp [hc1, hc2]
        · simp [demodStep, hc1, hc2]
  · exact demodRun_bytes_mono agcF costasF xs st

end MeteorDemod
